import Mathlib

/-!
Verification of the SEDAR-NLI Agent Orchestration Engine core.

This file gives a shallow embedding, in Lean 4, of the parts of the
SEDAR-NLI repository that the specification's testable properties talk
about:

* the Object Cache (`src/tools/tools.py`, `src/tools/object_cache_repl.py`):
  python dicts keyed by cache-key strings are embedded as association
  lists with python-dict insertion/update semantics (`dictInsert`,
  `lookupCache`);
* reference resolution
  (`ToolGenerator._replace_object_cache_references.replace_value`),
  auto-registration (`store_raw_output_in_cache`), the sandbox output
  function (`ObjectCachePythonREPL.pout`) and the post-execution state
  update (`update_tool_state`);
* the orchestration state machine (`src/agent_graph/sedar_agent_graph.py`,
  `src/agents/sedar/manager_agent.py`, `src/agent_graph/tool_graph.py`)
  as an explicit step function on an `AgentState` record, with the
  language-model outputs, human confirmations and execution results
  supplied as explicit step inputs;
* tool/sandbox error capture (`src/tools/sedar_tool.py`,
  `ObjectCachePythonREPL.worker`).

Python values that can live in the cache or in argument trees are
embedded as the inductive `PyVal`: `None`, strings, integers (standing
for arbitrary non-container scalars), opaque domain objects carrying
their runtime type name, lists, and string-keyed dicts.
-/

namespace SedarNLI

/-- Modelled from the spec: the module `states/consts.py` that defines the
action string constants (`TOOL_ACTION`, `CODE_ACTION`, `CONTINUE_ACTION`,
`ERROR_ACTION`, `DECLINE_ACTION`) is not part of the sources; per spec §3
the `ActionSignal` is an enum with exactly one signal active at a time,
so the code's `CONST in state["next_action"]` substring tests are embedded
as equality tests on this enum.  `EMPTY` stands for the initial value
`""` of `next_action` (set in `get_state`), which contains none of the
constants; `DONE` stands for any other synthesizer answer text that
contains none of the constants. -/
inductive ActionSignal
  | TOOL
  | CODE
  | CONT
  | ERROR
  | DECLINE
  | DONE
  | EMPTY
deriving DecidableEq, Repr

/-- Embedded python values (cache entries, tool arguments, raw outputs).
`vint` stands for arbitrary non-container, non-string scalars; `vobj`
is an opaque domain object with its runtime class name and an identity. -/
inductive PyVal
  | vnone
  | vstr (s : String)
  | vint (n : Int)
  | vobj (typeName : String) (id : Nat)
  | vlist (xs : List PyVal)
  | vdict (xs : List (String × PyVal))

/-- The object cache: a python dict from cache-key strings to values,
embedded as an insertion-ordered association list without duplicate keys
arising from `dictInsert`. -/
abbrev ObjectCache := List (String × PyVal)

/-- Python dict key membership (`key in d`). -/
def containsKey (cache : ObjectCache) (k : String) : Bool :=
  cache.any (fun p => p.1 == k)

/-- Python dict lookup (`d[key]` / `d.get(key)`), first matching key. -/
def lookupCache (cache : ObjectCache) (k : String) : Option PyVal :=
  match cache with
  | [] => Option.none
  | p :: rest => if p.1 == k then some p.2 else lookupCache rest k

/-- Python dict assignment `d[key] = v`: updates the value in place if the
key is present (keeping its position), otherwise appends at the end. -/
def dictInsert (cache : ObjectCache) (k : String) (v : PyVal) : ObjectCache :=
  if containsKey cache k then
    cache.map (fun p => if p.1 == k then (k, v) else p)
  else
    cache ++ [(k, v)]

/-- A regex word character `\w` restricted to the ASCII values that occur
in the repository's keys: letters, digits and underscore. -/
def isWordChar (c : Char) : Bool :=
  c.isAlphanum || c == '_'

/-- The cache-key pattern `^_(\w+)_(\w+)$` compiled in
`ToolGenerator._replace_object_cache_references` (src/tools/tools.py:148).
A string matches iff it starts with an underscore, all remaining
characters are word characters, and (because both groups need at least
one character and `\w` itself matches underscore) some underscore occurs
strictly inside the remainder. -/
def matchesCacheKeyPattern (s : String) : Bool :=
  match s.data with
  | '_' :: rest => rest.all isWordChar && ((rest.drop 1).dropLast.contains '_')
  | _ => false

/-- The set of capability-bearing ("cacheable") runtime class names.  In
the sources `CacheableRegistry` (src/cache/cacheable.py) holds classes
registered with the `@cacheable` decorator; every registration in the
repository is an API domain class, so python builtins (`list`, `dict`,
`str`, `int`, `NoneType`) are never cacheable and subclass relations are
collapsed into membership of the class name. -/
abbrev Registry := List String

/-- The runtime class name `value.__class__.__name__` of an embedded value. -/
def typeNameOf : PyVal → String
  | .vnone => "NoneType"
  | .vstr _ => "str"
  | .vint _ => "int"
  | .vobj t _ => t
  | .vlist _ => "list"
  | .vdict _ => "dict"

/-- `CacheableRegistry.is_cacheable` (src/cache/cacheable.py): only opaque
domain objects whose class is registered are cacheable. -/
def isCacheable (reg : Registry) : PyVal → Bool
  | .vobj t _ => reg.contains t
  | _ => false

/-- Modelled from the spec: the reserved "last output" key constant
`LAST_OUTPUT` is imported from the missing `states` consts module; §3 of
the spec only requires one reserved key that always holds the most
recent raw execution result. -/
def LAST_OUTPUT : String := "LAST_OUTPUT"

/-- Python `s.upper()` on the class names occurring in keys, embedded as
a characterwise map (kernel-reducible, unlike `String.toUpper`). -/
def pyUpper (s : String) : String := String.mk (s.data.map Char.toUpper)

/-- The cache key built for a registered value:
`f"_{value.__class__.__name__.upper()}_{generate_short_uuid()}"`
(src/tools/tools.py:248, src/tools/object_cache_repl.py:46). -/
def mkCacheKey (typeName : String) (uuid : String) : String :=
  "_" ++ pyUpper typeName ++ "_" ++ uuid

/-- `unpack_single_element_list` (src/tools/tools.py:250) and
`ObjectCachePythonREPL._unpack_single_element_list`. -/
def unpackSingleElementList : PyVal → PyVal
  | .vlist [x] => x
  | v => v

/-- `store_raw_output_in_cache` (src/tools/tools.py:241-248).  The fresh
short uuids of `generate_short_uuid` are supplied by `fresh`, consumed at
the counter carried in the pair (one uuid per stored value, as in the
source where `generate_short_uuid()` is called once per cacheable value). -/
def storeRawOutputInCache (reg : Registry) (fresh : Nat → String)
    (cn : ObjectCache × Nat) (rawOutput : PyVal) : ObjectCache × Nat :=
  let outputs : List PyVal :=
    match rawOutput with
    | .vlist xs => if xs.length ≤ 3 then xs else [rawOutput]
    | v => [v]
  outputs.foldl
    (fun acc v =>
      if isCacheable reg v then
        (dictInsert acc.1 (mkCacheKey (typeNameOf v) (fresh acc.2)) v, acc.2 + 1)
      else acc)
    cn

/-- The cache side effect of `ObjectCachePythonREPL.pout`
(src/tools/object_cache_repl.py:39-52): unpack a single-element list,
unconditionally overwrite the reserved last-output key, and additionally
register the (unpacked) output under a fresh key iff it is cacheable. -/
def poutCache (reg : Registry) (fresh : Nat → String)
    (cache : ObjectCache) (output : PyVal) : ObjectCache :=
  let output := unpackSingleElementList output
  let cache := dictInsert cache LAST_OUTPUT output
  if isCacheable reg output then
    dictInsert cache (mkCacheKey (typeNameOf output) (fresh 0)) output
  else cache

/-- Messages in the agent state: AI messages produced by an agent node,
human messages (code-execution output), and the custom `SedarToolMessage`
that additionally carries the raw tool output (src/tools/sedar_tool_message.py,
constructed in `_format_output` of src/tools/sedar_tool.py). -/
inductive Msg
  | ai (sourceNode : String) (content : String)
  | human (sourceNode : String) (content : String)
  | sedarToolMsg (rawOutput : PyVal) (content : String) (hasError : Bool)

/-- `isinstance(msg, SedarToolMessage)`. -/
def isSedarToolMsg : Msg → Bool
  | .sedarToolMsg _ _ _ => true
  | _ => false

/-- The `raw_output` attribute of a `SedarToolMessage`. -/
def rawOutputOf : Msg → PyVal
  | .sedarToolMsg r _ _ => r
  | _ => .vnone

/-- The `if raw_output is not None: object_cache[LAST_OUTPUT] = raw_output`
guard of `update_tool_state` (src/tools/tools.py:269-270). -/
def lastOutputUpdate (cache : ObjectCache) (r : PyVal) : ObjectCache :=
  match r with
  | .vnone => cache
  | _ => dictInsert cache LAST_OUTPUT r

/-- The cache effect of `update_tool_state` (src/tools/tools.py:254-280):
if the last message is a `SedarToolMessage`, its single-element-unpacked
raw output overwrites the reserved last-output key unless it is `None`,
and then `store_raw_output_in_cache` runs for every trailing
`SedarToolMessage` (walking the message list backwards until a message of
another kind is met). -/
def updateToolStateCache (reg : Registry) (fresh : Nat → String)
    (cache : ObjectCache) (messages : List Msg) : ObjectCache :=
  match messages.getLast? with
  | Option.none => cache
  | some last =>
    match last with
    | .sedarToolMsg raw _ _ =>
      let cache := lastOutputUpdate cache (unpackSingleElementList raw)
      let trailing := messages.reverse.takeWhile isSedarToolMsg
      (trailing.foldl
        (fun acc m => storeRawOutputInCache reg fresh acc (rawOutputOf m))
        (cache, 0)).1
    | _ => cache

mutual

/-- `replace_value` inside `ToolGenerator._replace_object_cache_references`
(src/tools/tools.py:150-166): recursively walks the value; a string that
matches the cache-key pattern and is a key of the object cache is replaced
by the cached value, every other scalar (including `None`, non-matching
strings and strings matching the pattern but absent from the cache) is
returned unchanged, and lists and dicts are rebuilt with their elements
(resp. values — dict keys are untouched) processed recursively. -/
def replaceValue (cache : ObjectCache) : PyVal → PyVal
  | .vnone => .vnone
  | .vstr s =>
    if matchesCacheKeyPattern s then
      match lookupCache cache s with
      | some v => v
      | Option.none => .vstr s
    else .vstr s
  | .vint n => .vint n
  | .vobj t i => .vobj t i
  | .vlist xs => .vlist (replaceValueList cache xs)
  | .vdict xs => .vdict (replaceValueDict cache xs)

/-- Elementwise recursion of `replace_value` through a python list. -/
def replaceValueList (cache : ObjectCache) : List PyVal → List PyVal
  | [] => []
  | x :: xs => replaceValue cache x :: replaceValueList cache xs

/-- Valuewise recursion of `replace_value` through a python dict. -/
def replaceValueDict (cache : ObjectCache) :
    List (String × PyVal) → List (String × PyVal)
  | [] => []
  | p :: xs => (p.1, replaceValue cache p.2) :: replaceValueDict cache xs

end

/-- `ToolGenerator._replace_object_cache_references` applied to the
top-level kwargs dict (src/tools/tools.py:168-170). -/
def replaceObjectCacheReferences (cache : ObjectCache)
    (kwargs : List (String × PyVal)) : List (String × PyVal) :=
  kwargs.map (fun p => (p.1, replaceValue cache p.2))

mutual

/-- An argument tree contains a remaining valid cache reference: some
string leaf (in list elements or dict values) matches the cache-key
pattern and is present in the cache. -/
def hasValidRef (cache : ObjectCache) : PyVal → Bool
  | .vstr s => matchesCacheKeyPattern s && (lookupCache cache s).isSome
  | .vlist xs => hasValidRefList cache xs
  | .vdict xs => hasValidRefDict cache xs
  | _ => false

/-- `hasValidRef` over a python list. -/
def hasValidRefList (cache : ObjectCache) : List PyVal → Bool
  | [] => false
  | x :: xs => hasValidRef cache x || hasValidRefList cache xs

/-- `hasValidRef` over python dict values. -/
def hasValidRefDict (cache : ObjectCache) : List (String × PyVal) → Bool
  | [] => false
  | p :: xs => hasValidRef cache p.2 || hasValidRefDict cache xs

end

/-- One step into an argument tree: a list index or a dict key. -/
inductive PathStep
  | idx (i : Nat)
  | key (k : String)
deriving DecidableEq, Repr

/-- First binding of a key in an embedded python dict. -/
def findAssoc (xs : List (String × PyVal)) (k : String) : Option PyVal :=
  match xs with
  | [] => Option.none
  | p :: rest => if p.1 == k then some p.2 else findAssoc rest k

/-- Access a subtree of an argument tree along a path of list indices and
dict keys; `none` when the path does not exist. -/
def getPath (v : PyVal) : List PathStep → Option PyVal
  | [] => some v
  | .idx i :: p =>
    match v with
    | .vlist xs => match xs.get? i with
      | some x => getPath x p
      | Option.none => Option.none
    | _ => Option.none
  | .key k :: p =>
    match v with
    | .vdict xs => match findAssoc xs k with
      | some x => getPath x p
      | Option.none => Option.none
    | _ => Option.none

/-- The nodes of the orchestration graph built in
`SedarAgentGraph.create_graph` (src/agent_graph/sedar_agent_graph.py).
The tool subgraph (`ToolGraph`) is entered through the single parent node
`toolAgent`; `endNode` is langgraph's `END`. -/
inductive Node
  | managerAgent
  | toolAgent
  | codeAgent
  | codeExecutionTool
  | synthesizeAgent
  | removeToolMessages
  | removeCodeMessages
  | endNode
deriving DecidableEq, Repr

/-- The per-session `SedarAgentState` (src/states/sedar_agent_state.py)
restricted to the fields the orchestration loop reads and writes.  The
index starts at `-1` (`get_state`) and is therefore an integer. -/
structure AgentState where
  messages : List Msg
  managerAgentMessages : List Msg
  toolAgentMessages : List Msg
  codeAgentMessages : List Msg
  toolExecutionMessages : List Msg
  codeExecutionMessages : List Msg
  synthesizeAgentMessages : List Msg
  decomposedQueries : List String
  currentQueryIndex : Int
  currentQueryNumberOfTries : Nat
  nextAction : ActionSignal
  objectCache : ObjectCache

/-- The external inputs one orchestration step consumes: the language
model's parsed decision or synthesis signal together with the message
text it produced, the human confirmation answers, and the raw result of a
tool or sandbox execution.  The code sandbox executes arbitrary generated
code against the live cache, so its step carries the resulting cache. -/
inductive StepInput
  | llmOut (a : ActionSignal) (content : String)
  | toolRun (content : String) (approved : Bool) (raw : PyVal)
      (toolContent : String) (hasErr : Bool)
  | codeGen (content : String) (approved : Bool)
  | codeRun (output : String) (cacheAfter : ObjectCache)
  | unit

/-- `ManagerAgent._get_and_update_current_query`
(src/agents/sedar/manager_agent.py:39-48): the retry counter is first
incremented; then, if the incoming signal is none of CONTINUE, ERROR,
DECLINE, the counter is reset to 0 and the subquery index advances. -/
def getAndUpdateCurrentQuery (s : AgentState) : AgentState :=
  let s := { s with currentQueryNumberOfTries := s.currentQueryNumberOfTries + 1 }
  if s.nextAction ≠ ActionSignal.CONT ∧ s.nextAction ≠ ActionSignal.ERROR ∧
      s.nextAction ≠ ActionSignal.DECLINE then
    { s with currentQueryNumberOfTries := 0,
             currentQueryIndex := s.currentQueryIndex + 1 }
  else s

/-- `SedarAgentGraph.next_action` (src/agent_graph/sedar_agent_graph.py:98-106):
conditional routing after the manager node. -/
def nextActionRoute (s : AgentState) : Node :=
  if s.nextAction = ActionSignal.TOOL then Node.toolAgent
  else if s.nextAction = ActionSignal.CODE then Node.codeAgent
  else if s.nextAction = ActionSignal.ERROR then Node.managerAgent
  else Node.synthesizeAgent

/-- `SedarAgentGraph.run_query` (src/agent_graph/sedar_agent_graph.py:146-153):
conditional routing after the synthesize node; leave the subquery loop
when the retry counter has reached 3, continue when the signal is
CONTINUE or further subqueries remain, otherwise leave. -/
def runQueryRoute (s : AgentState) : Node :=
  if s.currentQueryNumberOfTries ≥ 3 then Node.endNode
  else if s.nextAction = ActionSignal.CONT ∨
      s.currentQueryIndex < (s.decomposedQueries.length : Int) - 1 then
    Node.managerAgent
  else Node.endNode

/-- `SedarAgentGraph.check_tool_cancellation`
(src/agent_graph/sedar_agent_graph.py:109-113): after the tool subgraph,
a declined confirmation is recognized by the last message not being a
`SedarToolMessage` while the pending action is TOOL. -/
def checkToolCancellation (s : AgentState) : Node :=
  match s.messages.getLast? with
  | some m =>
    if s.nextAction = ActionSignal.TOOL ∧ ¬ isSedarToolMsg m then
      Node.removeToolMessages
    else Node.synthesizeAgent
  | Option.none => Node.synthesizeAgent

/-- One transition of the orchestration state machine
(src/agent_graph/sedar_agent_graph.py together with the node bodies in
src/agents/sedar/ and src/tools/).  `humanConfirmation` is the
`config.human_confirmation` flag choosing between the gated and the
ungated wiring of `create_graph`.  Each case returns the next node and
the updated state:

* `managerAgent` (`ManagerAgent.invoke`): update counter/index from the
  incoming signal, append the model message to `messages` and
  `manager_agent_messages`, set `next_action` to the parsed action
  (ERROR on a parse failure), and route via `next_action`;
* `toolAgent` (the whole `ToolGraph` subgraph): `ToolAgent.invoke`
  appends its tool-call message; with an approved (or ungated)
  confirmation the `ToolNode` appends the resulting `SedarToolMessage`
  and `update_tool_state` records it in `tool_execution_messages` and
  updates the cache; afterwards `check_tool_cancellation` (gated) or the
  fixed edge (ungated) routes on;
* `codeAgent` (`CodeAgent.invoke` plus the `code_confirmation`
  conditional edge): append the generated code message; route to the
  execution node or, on decline, to `remove_code_messages`;
* `codeExecutionTool` (`CodeExecutionTool.run`): append the execution
  output as a message, replace the cache by the sandbox's cache;
* `synthesizeAgent` (`SynthesizeAgent.invoke`): append the synthesis
  message, set `next_action` to its content signal, route via
  `run_query`;
* `removeToolMessages`/`removeCodeMessages`
  (src/agent_graph/sedar_agent_graph.py:169-188): pop the last top-level
  and the last component message, set `next_action` to DECLINE, and
  return to the manager on the fixed edge.

A node paired with an input form it does not consume stutters. -/
def step (humanConfirmation : Bool) (reg : Registry) (fresh : Nat → String)
    (n : Node) (inp : StepInput) (s : AgentState) : Node × AgentState :=
  match n, inp with
  | Node.managerAgent, StepInput.llmOut a content =>
    let s := getAndUpdateCurrentQuery s
    let m := Msg.ai "manager_agent" content
    let s := { s with
      messages := s.messages ++ [m],
      managerAgentMessages := s.managerAgentMessages ++ [m],
      nextAction := a }
    (nextActionRoute s, s)
  | Node.toolAgent, StepInput.toolRun content approved raw toolContent hasErr =>
    let m := Msg.ai "tool_agent" content
    let s := { s with
      messages := s.messages ++ [m],
      toolAgentMessages := s.toolAgentMessages ++ [m] }
    let s :=
      if approved ∨ ¬ humanConfirmation then
        let tm := Msg.sedarToolMsg raw toolContent hasErr
        let s := { s with messages := s.messages ++ [tm] }
        { s with
          toolExecutionMessages := s.toolExecutionMessages ++ [tm],
          objectCache := updateToolStateCache reg fresh s.objectCache s.messages }
      else s
    if humanConfirmation then (checkToolCancellation s, s)
    else (Node.synthesizeAgent, s)
  | Node.codeAgent, StepInput.codeGen content approved =>
    let m := Msg.ai "code_agent" content
    let s := { s with
      messages := s.messages ++ [m],
      codeAgentMessages := s.codeAgentMessages ++ [m] }
    if humanConfirmation ∧ ¬ approved then (Node.removeCodeMessages, s)
    else (Node.codeExecutionTool, s)
  | Node.codeExecutionTool, StepInput.codeRun output cacheAfter =>
    let m := Msg.human "code_executor" output
    let s := { s with
      messages := s.messages ++ [m],
      codeExecutionMessages := s.codeExecutionMessages ++ [m],
      objectCache := cacheAfter }
    (Node.synthesizeAgent, s)
  | Node.synthesizeAgent, StepInput.llmOut a content =>
    let m := Msg.ai "synthesize_agent" content
    let s := { s with
      messages := s.messages ++ [m],
      synthesizeAgentMessages := s.synthesizeAgentMessages ++ [m],
      nextAction := a }
    (runQueryRoute s, s)
  | Node.removeToolMessages, _ =>
    let s := { s with
      messages := s.messages.dropLast,
      toolAgentMessages := s.toolAgentMessages.dropLast,
      nextAction := ActionSignal.DECLINE }
    (Node.managerAgent, s)
  | Node.removeCodeMessages, _ =>
    let s := { s with
      messages := s.messages.dropLast,
      codeAgentMessages := s.codeAgentMessages.dropLast,
      nextAction := ActionSignal.DECLINE }
    (Node.managerAgent, s)
  | Node.endNode, _ => (Node.endNode, s)
  | n, _ => (n, s)

/-- Run the machine over a list of step inputs. -/
def runTrace (humanConfirmation : Bool) (reg : Registry) (fresh : Nat → String) :
    Node × AgentState → List StepInput → Node × AgentState
  | ns, [] => ns
  | (n, s), i :: rest =>
    runTrace humanConfirmation reg fresh (step humanConfirmation reg fresh n i s) rest

/-- The initial state built by `get_state`
(src/states/sedar_agent_state.py): index `-1`, zero tries, empty message
lists, empty `next_action`, a pre-populated cache, and the decomposed
subquery list; the graph edge `START → manager_agent` makes the manager
the first node. -/
def initState (decomposedQueries : List String) (cache : ObjectCache) : AgentState :=
  { messages := []
    managerAgentMessages := []
    toolAgentMessages := []
    codeAgentMessages := []
    toolExecutionMessages := []
    codeExecutionMessages := []
    synthesizeAgentMessages := []
    decomposedQueries := decomposedQueries
    currentQueryIndex := -1
    currentQueryNumberOfTries := 0
    nextAction := ActionSignal.EMPTY
    objectCache := cache }

/-- `TOOL_EXECUTION_ERROR_MSG` (src/tools/sedar_tool.py:26). -/
def TOOL_EXECUTION_ERROR_MSG : String := "An error occurred while executing the tool:"

/-- The observable outcome of `SedarTool.run`: a normally returned message
(the `SedarToolMessage` built by `_format_output`, carrying the serialized
content, the `has_error` flag and the optional raw output) or a re-raised
exception. -/
inductive ToolRunOutcome
  | message (content : String) (hasError : Bool) (raw : Option PyVal)
  | raisedExc (e : String)

/-- Python `pre.startswith(s)` embedded on character lists
(`serialized.startswith(TOOL_EXECUTION_ERROR_MSG)` in `_format_output`). -/
def pyStartsWith (s pre : String) : Bool :=
  pre.data.isPrefixOf s.data

/-- `SedarTool._run` together with the copied `run` error handling and
`_format_output` (src/tools/sedar_tool.py): the wrapped method call
either returns a result `v`, serialized to the message content by the
ambient `serialize` (the captured stdout/log text concatenated with
`CacheableSerializer.serialize_result`), or raises; the raised exception
`e` (its python `str` form) is wrapped into
`ToolException(f"{TOOL_EXECUTION_ERROR_MSG} {e}")`.  With
`handle_tool_error=True` (the value set by `ToolGenerator.generate_tools`,
src/tools/tools.py:222) the exception is converted into the message
content and flagged via `has_error`; with `False` it is re-raised. -/
def sedarToolRun (handleToolError : Bool) (serialize : PyVal → String)
    (methodResult : Except String PyVal) : ToolRunOutcome :=
  match methodResult with
  | Except.ok v =>
    let content := serialize v
    ToolRunOutcome.message content (pyStartsWith content TOOL_EXECUTION_ERROR_MSG) (some v)
  | Except.error e =>
    let m := TOOL_EXECUTION_ERROR_MSG ++ " " ++ e
    if handleToolError then
      ToolRunOutcome.message m (pyStartsWith m TOOL_EXECUTION_ERROR_MSG) Option.none
    else ToolRunOutcome.raisedExc m

/-- A python exception by class name and message; `str(e)` is the message
and `repr(e)` is `ClassName('message')`. -/
structure PyExc where
  ty : String
  msg : String

/-- Python `str(e)`. -/
def pyStr (e : PyExc) : String := e.msg

/-- Python `repr(e)` for an exception built from one string argument. -/
def pyRepr (e : PyExc) : String := e.ty ++ "(\x27" ++ e.msg ++ "\x27)"

/-- `ObjectCachePythonREPL.worker` (src/tools/object_cache_repl.py:62-93):
the sandboxed `exec` either completes, in which case the captured log and
stdout text is put on the result queue, or raises, in which case
`repr(e)` is put on the queue; nothing is ever re-raised out of the
worker. -/
def replWorker (execResult : Except PyExc String) : String :=
  match execResult with
  | Except.ok captured => captured
  | Except.error e => pyRepr e

/-- The registration entries that one ≤3-element list-valued raw output
produces, written out as the association list of (fresh key, cacheable
element) pairs in element order; the uuid counter advances only on stored
elements, mirroring `store_raw_output_in_cache`. -/
def regEntries (reg : Registry) (fresh : Nat → String) :
    Nat → List PyVal → List (String × PyVal)
  | _, [] => []
  | n, v :: vs =>
    if isCacheable reg v then
      (mkCacheKey (typeNameOf v) (fresh n), v) :: regEntries reg fresh (n + 1) vs
    else regEntries reg fresh n vs

/-! ## Supporting lemmas -/

theorem lookupCache_replace_self (cache : ObjectCache) (k : String) (v : PyVal)
    (h : containsKey cache k = true) :
    lookupCache (cache.map (fun p => if p.1 == k then (k, v) else p)) k = some v := by
  induction cache with
  | nil => simp [containsKey] at h
  | cons p rest ih =>
    cases hpk : (p.1 == k) with
    | true => simp [lookupCache, hpk]
    | false =>
      have hrest : containsKey rest k = true := by
        simpa [containsKey, hpk] using h
      simp only [List.map_cons, hpk, Bool.false_eq_true, ite_false, lookupCache]
      exact ih hrest

theorem lookupCache_replace_ne (cache : ObjectCache) (k k2 : String) (v : PyVal)
    (h : k ≠ k2) :
    lookupCache (cache.map (fun p => if p.1 == k then (k, v) else p)) k2 =
      lookupCache cache k2 := by
  induction cache with
  | nil => simp [lookupCache]
  | cons p rest ih =>
    cases hpk : (p.1 == k) with
    | true =>
      have hp : p.1 = k := by simpa using hpk
      have hkk2 : (k == k2) = false := by simpa using h
      have hpk2 : (p.1 == k2) = false := by rw [hp]; exact hkk2
      simp only [List.map_cons, lookupCache]
      rw [if_pos hpk]
      simp only [lookupCache, hkk2, hpk2, Bool.false_eq_true, ite_false]
      exact ih
    | false =>
      simp only [List.map_cons, hpk, Bool.false_eq_true, ite_false, lookupCache]
      cases hpk2 : (p.1 == k2) with
      | true => simp [hpk2]
      | false =>
        simp only [hpk2, Bool.false_eq_true, ite_false]
        exact ih

theorem lookupCache_append_single (cache : ObjectCache) (k : String) (v : PyVal)
    (h : containsKey cache k = false) :
    lookupCache (cache ++ [(k, v)]) k = some v := by
  induction cache with
  | nil => simp [lookupCache]
  | cons p rest ih =>
    cases hpk : (p.1 == k) with
    | true => simp [containsKey, hpk] at h
    | false =>
      have hrest : containsKey rest k = false := by
        simpa [containsKey, hpk] using h
      simp only [List.cons_append, lookupCache, hpk, Bool.false_eq_true, ite_false]
      exact ih hrest

theorem lookupCache_append_single_ne (cache : ObjectCache) (k k2 : String) (v : PyVal)
    (h : k ≠ k2) : lookupCache (cache ++ [(k, v)]) k2 = lookupCache cache k2 := by
  induction cache with
  | nil =>
    have hkk2 : (k == k2) = false := by simpa using h
    simp [lookupCache, hkk2]
  | cons p rest ih =>
    simp only [List.cons_append, lookupCache]
    cases hpk2 : (p.1 == k2) with
    | true => simp [hpk2]
    | false =>
      simp only [hpk2, Bool.false_eq_true, ite_false]
      exact ih

theorem lookupCache_dictInsert_self (cache : ObjectCache) (k : String) (v : PyVal) :
    lookupCache (dictInsert cache k v) k = some v := by
  unfold dictInsert
  by_cases h : containsKey cache k
  · rw [if_pos h]
    exact lookupCache_replace_self cache k v h
  · rw [if_neg h]
    exact lookupCache_append_single cache k v (by simpa using h)

theorem lookupCache_dictInsert_ne (cache : ObjectCache) (k k2 : String) (v : PyVal)
    (h : k ≠ k2) : lookupCache (dictInsert cache k v) k2 = lookupCache cache k2 := by
  unfold dictInsert
  by_cases hc : containsKey cache k
  · rw [if_pos hc]
    exact lookupCache_replace_ne cache k k2 v h
  · rw [if_neg hc]
    exact lookupCache_append_single_ne cache k k2 v h

theorem dictInsert_length_le (cache : ObjectCache) (k : String) (v : PyVal) :
    (dictInsert cache k v).length ≤ cache.length + 1 := by
  unfold dictInsert
  split
  · simp only [List.length_map]
    omega
  · simp only [List.length_append, List.length_cons, List.length_nil]
    omega

/-- A key produced by `mkCacheKey` starts with an underscore, so it never
collides with the reserved last-output key. -/
theorem mkCacheKey_ne_LAST_OUTPUT (t u : String) : mkCacheKey t u ≠ LAST_OUTPUT := by
  intro h
  have hd := congrArg String.data h
  simp only [mkCacheKey, String.data_append, LAST_OUTPUT] at hd
  have hh : ((("_".data ++ (pyUpper t).data) ++ "_".data) ++ u.data).head? =
      ("LAST_OUTPUT".data).head? := by rw [hd]
  simp at hh

/-- `store_raw_output_in_cache` only writes `_TYPE_id`-shaped keys, hence
it never writes the reserved last-output key. -/
theorem storeRawOutputInCache_lookup_LAST_OUTPUT (reg : Registry) (fresh : Nat → String)
    (cn : ObjectCache × Nat) (raw : PyVal) :
    lookupCache (storeRawOutputInCache reg fresh cn raw).1 LAST_OUTPUT =
      lookupCache cn.1 LAST_OUTPUT := by
  unfold storeRawOutputInCache
  generalize houts : (match raw with
    | .vlist xs => if xs.length ≤ 3 then xs else [raw]
    | v => [v]) = outputs
  clear houts
  induction outputs generalizing cn with
  | nil => rfl
  | cons x xs ih =>
    simp only [List.foldl_cons]
    rw [ih]
    by_cases hc : isCacheable reg x
    · simp only [hc, if_true]
      exact lookupCache_dictInsert_ne _ _ _ _ (mkCacheKey_ne_LAST_OUTPUT _ _)
    · simp [hc]

theorem storeRawOutputInCache_fold_lookup_LAST_OUTPUT (reg : Registry)
    (fresh : Nat → String) (ms : List Msg) (cn : ObjectCache × Nat) :
    lookupCache
      (ms.foldl (fun acc m => storeRawOutputInCache reg fresh acc (rawOutputOf m)) cn).1
      LAST_OUTPUT = lookupCache cn.1 LAST_OUTPUT := by
  induction ms generalizing cn with
  | nil => rfl
  | cons x xs ih =>
    simp only [List.foldl_cons]
    rw [ih, storeRawOutputInCache_lookup_LAST_OUTPUT]

theorem lastOutputUpdate_ne_vnone (cache : ObjectCache) (r : PyVal)
    (h : r ≠ PyVal.vnone) : lastOutputUpdate cache r = dictInsert cache LAST_OUTPUT r := by
  cases r with
  | vnone => exact absurd rfl h
  | vstr s => rfl
  | vint m => rfl
  | vobj t i => rfl
  | vlist xs => rfl
  | vdict xs => rfl

/-! ## C3: index/retry bookkeeping on entry to the manager -/

/-- C3.  On each entry to `ManagerDecision`
(`ManagerAgent._get_and_update_current_query`, reached through the
`managerAgent` step), the subquery index advances by one and the retry
counter resets to 0 exactly when the incoming `ActionSignal` is none of
CONTINUE, ERROR, DECLINE; when it is one of those three, the index stays
unchanged and the retry counter increments by exactly one. -/
theorem manager_entry_index_and_retry (humanConfirmation : Bool) (reg : Registry)
    (fresh : Nat → String) (a : ActionSignal) (content : String) (s : AgentState) :
    ((step humanConfirmation reg fresh Node.managerAgent
        (StepInput.llmOut a content) s).2.currentQueryIndex =
      if s.nextAction = ActionSignal.CONT ∨ s.nextAction = ActionSignal.ERROR ∨
          s.nextAction = ActionSignal.DECLINE then
        s.currentQueryIndex
      else s.currentQueryIndex + 1) ∧
    ((step humanConfirmation reg fresh Node.managerAgent
        (StepInput.llmOut a content) s).2.currentQueryNumberOfTries =
      if s.nextAction = ActionSignal.CONT ∨ s.nextAction = ActionSignal.ERROR ∨
          s.nextAction = ActionSignal.DECLINE then
        s.currentQueryNumberOfTries + 1
      else 0) := by
  simp only [step, getAndUpdateCurrentQuery]
  by_cases h : s.nextAction = ActionSignal.CONT ∨ s.nextAction = ActionSignal.ERROR ∨
      s.nextAction = ActionSignal.DECLINE
  · rw [if_pos h, if_pos h]
    have : ¬ (s.nextAction ≠ ActionSignal.CONT ∧ s.nextAction ≠ ActionSignal.ERROR ∧
        s.nextAction ≠ ActionSignal.DECLINE) := by tauto
    simp [this]
  · rw [if_neg h, if_neg h]
    push_neg at h
    simp [h.1, h.2.1, h.2.2]

/-! ## C1: the retry bound and consecutive ERROR signals -/

/-- C1 counterexample.  With one subquery and no confirmation gate, feed
the manager five consecutive parse failures (ActionSignal ERROR).  The
conditional edge `next_action` routes every ERROR straight back to
`manager_agent`, never through `run_query`, so after three consecutive
ERROR signals the loop has not exited (the machine still sits at the
manager with the counter at 2), and after five the counter has reached 4
— strictly above 3 — while the loop still has not exited.  This refutes
both parts of the claim at a concrete input. -/
theorem retry_bound_counterexample :
    (runTrace false [] (fun _ => "u") (Node.managerAgent, initState ["q1"] [])
        (List.replicate 3 (StepInput.llmOut ActionSignal.ERROR "bad"))).1 =
      Node.managerAgent ∧
    (runTrace false [] (fun _ => "u") (Node.managerAgent, initState ["q1"] [])
        (List.replicate 3 (StepInput.llmOut ActionSignal.ERROR "bad"))).2.currentQueryNumberOfTries = 2 ∧
    (runTrace false [] (fun _ => "u") (Node.managerAgent, initState ["q1"] [])
        (List.replicate 5 (StepInput.llmOut ActionSignal.ERROR "bad"))).1 ≠
      Node.endNode ∧
    3 < (runTrace false [] (fun _ => "u") (Node.managerAgent, initState ["q1"] [])
        (List.replicate 5 (StepInput.llmOut ActionSignal.ERROR "bad"))).2.currentQueryNumberOfTries := by
  refine ⟨rfl, rfl, ?_, ?_⟩
  · intro h
    exact Node.noConfusion h
  · decide

/-- C1 amended.  The retry bound is enforced only at the conditional edge
after the Synthesize step: whenever that edge is evaluated with the
counter at 3 or more, the subquery loop exits, whatever the synthesis
signal.  An ERROR signal, however, routes from the manager straight back
to the manager without passing that edge, so the counter is not checked
on consecutive ERRORs (and can grow beyond 3, as the counterexample
shows). -/
theorem retry_bound_amended (humanConfirmation : Bool) (reg : Registry)
    (fresh : Nat → String) (a : ActionSignal) (content errContent : String)
    (s : AgentState) (h : 3 ≤ s.currentQueryNumberOfTries) :
    (step humanConfirmation reg fresh Node.synthesizeAgent
        (StepInput.llmOut a content) s).1 = Node.endNode ∧
    (step humanConfirmation reg fresh Node.managerAgent
        (StepInput.llmOut ActionSignal.ERROR errContent) s).1 = Node.managerAgent := by
  constructor
  · simp only [step, runQueryRoute]
    rw [if_pos (by simpa using h)]
  · simp [step, nextActionRoute]

/-- Witness for the amended C1 at a concrete state with the counter at 3. -/
theorem retry_bound_amended_witness :
    3 ≤ ({ initState ["q1"] [] with currentQueryNumberOfTries := 3 } : AgentState).currentQueryNumberOfTries ∧
    (step false [] (fun _ => "u") Node.synthesizeAgent
        (StepInput.llmOut ActionSignal.CONT "go")
        { initState ["q1"] [] with currentQueryNumberOfTries := 3 }).1 = Node.endNode ∧
    (step false [] (fun _ => "u") Node.managerAgent
        (StepInput.llmOut ActionSignal.ERROR "bad")
        { initState ["q1"] [] with currentQueryNumberOfTries := 3 }).1 = Node.managerAgent :=
  ⟨by decide,
   (retry_bound_amended false [] (fun _ => "u") ActionSignal.CONT "go" "bad"
      { initState ["q1"] [] with currentQueryNumberOfTries := 3 } (by decide)).1,
   (retry_bound_amended false [] (fun _ => "u") ActionSignal.CONT "go" "bad"
      { initState ["q1"] [] with currentQueryNumberOfTries := 3 } (by decide)).2⟩

/-! ## C2: the exit condition after Synthesize -/

/-- C2.  At the conditional edge after the Synthesize step (`run_query`),
provided the current subquery index does not exceed the last index (an
invariant of reachable states: the index only advances on entry to the
manager, which is reached from `run_query` with a non-CONTINUE signal only
while the index is strictly below the last one), the subquery loop exits
iff the retry counter has reached 3, or the synthesized ActionSignal is
not CONTINUE and the index is the last index of the decomposed-query
list; in every other case control returns to `ManagerDecision`. -/
theorem synthesize_exit_condition (humanConfirmation : Bool) (reg : Registry)
    (fresh : Nat → String) (a : ActionSignal) (content : String) (s : AgentState)
    (h : s.currentQueryIndex ≤ (s.decomposedQueries.length : Int) - 1) :
    ((step humanConfirmation reg fresh Node.synthesizeAgent
        (StepInput.llmOut a content) s).1 = Node.endNode ↔
      3 ≤ s.currentQueryNumberOfTries ∨
        (a ≠ ActionSignal.CONT ∧
          s.currentQueryIndex = (s.decomposedQueries.length : Int) - 1)) ∧
    ((step humanConfirmation reg fresh Node.synthesizeAgent
        (StepInput.llmOut a content) s).1 = Node.endNode ∨
      (step humanConfirmation reg fresh Node.synthesizeAgent
        (StepInput.llmOut a content) s).1 = Node.managerAgent) := by
  simp only [step, runQueryRoute]
  by_cases h3 : 3 ≤ s.currentQueryNumberOfTries
  · rw [if_pos (by simpa using h3)]
    simp [h3]
  · rw [if_neg (by simpa using h3)]
    by_cases hc : a = ActionSignal.CONT
    · subst hc
      rw [if_pos (Or.inl rfl)]
      constructor
      · constructor
        · intro hend
          exact absurd hend (Node.noConfusion)
        · intro hor
          rcases hor with h3' | ⟨hne, _⟩
          · exact absurd h3' h3
          · exact absurd rfl hne
      · right; rfl
    · by_cases hlt : s.currentQueryIndex < (s.decomposedQueries.length : Int) - 1
      · rw [if_pos (Or.inr hlt)]
        constructor
        · constructor
          · intro hend
            exact absurd hend (Node.noConfusion)
          · intro hor
            rcases hor with h3' | ⟨_, heq⟩
            · exact absurd h3' h3
            · omega
        · right; rfl
      · rw [if_neg (by tauto)]
        constructor
        · constructor
          · intro _
            right
            exact ⟨hc, by omega⟩
          · intro _
            rfl
        · left; rfl

/-- Witness for C2 at a concrete state: two subqueries, index at the last
one, counter 0, a non-CONTINUE synthesis signal — the loop exits. -/
theorem synthesize_exit_condition_witness :
    (({ initState ["a", "b"] [] with currentQueryIndex := 1 } : AgentState).currentQueryIndex ≤
      ((({ initState ["a", "b"] [] with currentQueryIndex := 1 } : AgentState).decomposedQueries.length : Int) - 1)) ∧
    (step false [] (fun _ => "u") Node.synthesizeAgent
        (StepInput.llmOut ActionSignal.DONE "answer")
        { initState ["a", "b"] [] with currentQueryIndex := 1 }).1 = Node.endNode :=
  ⟨by decide,
   ((synthesize_exit_condition false [] (fun _ => "u") ActionSignal.DONE "answer"
      { initState ["a", "b"] [] with currentQueryIndex := 1 } (by decide)).1).mpr
     (Or.inr ⟨by decide, by decide⟩)⟩

/-! ## C4: the DECLINE rollback -/

/-- C4.  For a DECLINE taken at either confirmation gate (with the gate
enabled), the rollback removes exactly the last appended top-level message
and the last appended component-specific message — so both logs return to
their pre-action contents and lengths — sets the ActionSignal to DECLINE,
leaves every Object Cache entry unchanged, and returns control to the
manager.  Tool path (under the pending signal TOOL, which is how the
manager routes into the tool subgraph): `ToolAgent.invoke` appends its
message, the declined confirmation ends the tool subgraph,
`check_tool_cancellation` routes to `remove_tool_messages`, which pops
both messages.  Code path (for every state, in particular the reachable
code declines whose pending signal is CODE): `CodeAgent.invoke` appends
its message, the declined `code_confirmation` routes to
`remove_code_messages`, which pops both messages. -/
theorem decline_rollback (reg : Registry) (fresh : Nat → String) (s : AgentState)
    (toolText rawText codeText : String) (raw : PyVal) (hasErr : Bool) :
    (s.nextAction = ActionSignal.TOOL →
      ((step true reg fresh Node.toolAgent
          (StepInput.toolRun toolText false raw rawText hasErr) s).1 =
        Node.removeToolMessages) ∧
      (let afterTool := (step true reg fresh Node.toolAgent
          (StepInput.toolRun toolText false raw rawText hasErr) s).2
       let rolled := step true reg fresh Node.removeToolMessages StepInput.unit afterTool
       rolled.1 = Node.managerAgent ∧
       rolled.2.messages = s.messages ∧
       rolled.2.messages.length = s.messages.length ∧
       rolled.2.toolAgentMessages = s.toolAgentMessages ∧
       rolled.2.nextAction = ActionSignal.DECLINE ∧
       rolled.2.objectCache = s.objectCache)) ∧
    ((step true reg fresh Node.codeAgent (StepInput.codeGen codeText false) s).1 =
      Node.removeCodeMessages) ∧
    (let afterCode := (step true reg fresh Node.codeAgent
        (StepInput.codeGen codeText false) s).2
     let rolledC := step true reg fresh Node.removeCodeMessages StepInput.unit afterCode
     rolledC.1 = Node.managerAgent ∧
     rolledC.2.messages = s.messages ∧
     rolledC.2.messages.length = s.messages.length ∧
     rolledC.2.codeAgentMessages = s.codeAgentMessages ∧
     rolledC.2.nextAction = ActionSignal.DECLINE ∧
     rolledC.2.objectCache = s.objectCache) := by
  refine ⟨fun h => ⟨?_, ⟨rfl, ?_, ?_, ?_, rfl, rfl⟩⟩, ?_, ⟨rfl, ?_, ?_, ?_, rfl, rfl⟩⟩
  · simp only [step, Bool.false_eq_true, false_or, not_true, if_neg, ite_false,
      checkToolCancellation]
    rw [List.getLast?_concat]
    simp [h, isSedarToolMsg]
  · simp [step, List.dropLast_concat]
  · simp [step, List.dropLast_concat]
  · simp [step, List.dropLast_concat]
  · simp [step, List.dropLast_concat]
  · simp [step, List.dropLast_concat]
  · simp [step, List.dropLast_concat]
  · simp [step, List.dropLast_concat]

/-- Witness for C4, exercising both gates: the tool path at a concrete
state whose pending signal is TOOL (discharging the implication's
hypothesis), and the code path at a concrete state whose pending signal
is CODE — the state a reachable code decline actually has. -/
theorem decline_rollback_witness :
    ({ initState ["q"] [("k", PyVal.vint 1)] with
        nextAction := ActionSignal.TOOL
        messages := [Msg.ai "m" "x"] } : AgentState).nextAction = ActionSignal.TOOL ∧
    (step true [] (fun _ => "u") Node.toolAgent
        (StepInput.toolRun "call" false PyVal.vnone "res" false)
        { initState ["q"] [("k", PyVal.vint 1)] with
          nextAction := ActionSignal.TOOL
          messages := [Msg.ai "m" "x"] }).1 = Node.removeToolMessages ∧
    (step true [] (fun _ => "u") Node.codeAgent (StepInput.codeGen "snippet" false)
        { initState ["q"] [("k", PyVal.vint 1)] with
          nextAction := ActionSignal.CODE
          messages := [Msg.ai "m" "x"] }).1 = Node.removeCodeMessages ∧
    (step true [] (fun _ => "u") Node.removeCodeMessages StepInput.unit
        (step true [] (fun _ => "u") Node.codeAgent (StepInput.codeGen "snippet" false)
          { initState ["q"] [("k", PyVal.vint 1)] with
            nextAction := ActionSignal.CODE
            messages := [Msg.ai "m" "x"] }).2).2.messages = [Msg.ai "m" "x"] ∧
    (step true [] (fun _ => "u") Node.removeCodeMessages StepInput.unit
        (step true [] (fun _ => "u") Node.codeAgent (StepInput.codeGen "snippet" false)
          { initState ["q"] [("k", PyVal.vint 1)] with
            nextAction := ActionSignal.CODE
            messages := [Msg.ai "m" "x"] }).2).2.objectCache = [("k", PyVal.vint 1)] :=
  ⟨rfl,
   ((decline_rollback [] (fun _ => "u")
      { initState ["q"] [("k", PyVal.vint 1)] with
        nextAction := ActionSignal.TOOL
        messages := [Msg.ai "m" "x"] }
      "call" "res" "snippet" PyVal.vnone false).1 rfl).1,
   (decline_rollback [] (fun _ => "u")
      { initState ["q"] [("k", PyVal.vint 1)] with
        nextAction := ActionSignal.CODE
        messages := [Msg.ai "m" "x"] }
      "call" "res" "snippet" PyVal.vnone false).2.1,
   (decline_rollback [] (fun _ => "u")
      { initState ["q"] [("k", PyVal.vint 1)] with
        nextAction := ActionSignal.CODE
        messages := [Msg.ai "m" "x"] }
      "call" "res" "snippet" PyVal.vnone false).2.2.2.1,
   (decline_rollback [] (fun _ => "u")
      { initState ["q"] [("k", PyVal.vint 1)] with
        nextAction := ActionSignal.CODE
        messages := [Msg.ai "m" "x"] }
      "call" "res" "snippet" PyVal.vnone false).2.2.2.2.2.2.2⟩

/-! ## Auto-registration helper lemmas -/

theorem containsKey_append (a b : ObjectCache) (k : String) :
    containsKey (a ++ b) k = (containsKey a k || containsKey b k) := by
  simp [containsKey, List.any_append]

/-- A single cacheable, non-list value is stored under exactly one fresh
key. -/
theorem storeRaw_single_cacheable (reg : Registry) (fresh : Nat → String)
    (cache : ObjectCache) (n : Nat) (v : PyVal) (hc : isCacheable reg v = true) :
    storeRawOutputInCache reg fresh (cache, n) v =
      (dictInsert cache (mkCacheKey (typeNameOf v) (fresh n)) v, n + 1) := by
  cases v with
  | vobj t i =>
    simp only [storeRawOutputInCache, List.foldl_cons, List.foldl_nil, hc, if_true]
  | vnone => simp [isCacheable] at hc
  | vstr s => simp [isCacheable] at hc
  | vint m => simp [isCacheable] at hc
  | vlist xs => simp [isCacheable] at hc
  | vdict xs => simp [isCacheable] at hc

/-- A list is itself never cacheable, so a list of more than 3 elements
registers nothing. -/
theorem storeRaw_list_gt3 (reg : Registry) (fresh : Nat → String)
    (cache : ObjectCache) (n : Nat) (xs : List PyVal) (h : 3 < xs.length) :
    storeRawOutputInCache reg fresh (cache, n) (PyVal.vlist xs) = (cache, n) := by
  simp only [storeRawOutputInCache]
  rw [if_neg (by omega)]
  simp [isCacheable]

/-- The registration fold, applied to the elements of a ≤3-element list
whose generated keys are fresh (absent from the cache and pairwise
distinct), appends exactly the `regEntries` bindings. -/
theorem storeRaw_fold_eq_append (reg : Registry) (fresh : Nat → String)
    (xs : List PyVal) (cache : ObjectCache) (n : Nat)
    (hnew : ∀ e ∈ regEntries reg fresh n xs, containsKey cache e.1 = false)
    (hnodup : ((regEntries reg fresh n xs).map Prod.fst).Nodup) :
    xs.foldl
      (fun acc v =>
        if isCacheable reg v then
          (dictInsert acc.1 (mkCacheKey (typeNameOf v) (fresh acc.2)) v, acc.2 + 1)
        else acc)
      (cache, n) =
    (cache ++ regEntries reg fresh n xs, n + (regEntries reg fresh n xs).length) := by
  induction xs generalizing cache n with
  | nil => simp [regEntries]
  | cons v vs ih =>
    by_cases hc : isCacheable reg v
    · have hE : regEntries reg fresh n (v :: vs) =
          (mkCacheKey (typeNameOf v) (fresh n), v) :: regEntries reg fresh (n + 1) vs := by
        simp [regEntries, hc]
      have hknotin : containsKey cache (mkCacheKey (typeNameOf v) (fresh n)) = false :=
        hnew _ (by rw [hE]; exact List.mem_cons_self _ _)
      have hins : dictInsert cache (mkCacheKey (typeNameOf v) (fresh n)) v =
          cache ++ [(mkCacheKey (typeNameOf v) (fresh n), v)] := by
        unfold dictInsert
        rw [if_neg (by simp [hknotin])]
      rw [hE] at hnodup
      simp only [List.map_cons, List.nodup_cons] at hnodup
      have hnew2 : ∀ e ∈ regEntries reg fresh (n + 1) vs,
          containsKey (cache ++ [(mkCacheKey (typeNameOf v) (fresh n), v)]) e.1 = false := by
        intro e he
        have h1 : containsKey cache e.1 = false :=
          hnew e (by rw [hE]; exact List.mem_cons_of_mem _ he)
        have h2 : e.1 ≠ mkCacheKey (typeNameOf v) (fresh n) := by
          intro hh
          exact hnodup.1 (hh ▸ List.mem_map_of_mem Prod.fst he)
        rw [containsKey_append, h1]
        have h3 : ¬ (mkCacheKey (typeNameOf v) (fresh n) = e.1) := fun hh => h2 hh.symm
        simp [containsKey, h3]
      simp only [List.foldl_cons, hc, if_true, hins]
      rw [ih _ _ hnew2 hnodup.2, hE]
      simp only [List.append_assoc, List.singleton_append, List.length_cons,
        Prod.mk.injEq, true_and]
      omega
    · have hE : regEntries reg fresh n (v :: vs) = regEntries reg fresh n vs := by
        simp [regEntries, hc]
      rw [hE] at hnew hnodup
      simp only [List.foldl_cons, hc, Bool.false_eq_true, ite_false, hE]
      exact ih _ _ hnew hnodup

/-- The registration fold adds at most one entry per list element. -/
theorem storeRaw_fold_length_le (reg : Registry) (fresh : Nat → String)
    (xs : List PyVal) (cache : ObjectCache) (n : Nat) :
    (xs.foldl
      (fun acc v =>
        if isCacheable reg v then
          (dictInsert acc.1 (mkCacheKey (typeNameOf v) (fresh acc.2)) v, acc.2 + 1)
        else acc)
      (cache, n)).1.length ≤ cache.length + xs.length := by
  induction xs generalizing cache n with
  | nil => simp
  | cons v vs ih =>
    simp only [List.foldl_cons, List.length_cons]
    by_cases hc : isCacheable reg v
    · simp only [hc, if_true]
      have h1 := ih (dictInsert cache (mkCacheKey (typeNameOf v) (fresh n)) v) (n + 1)
      have h2 := dictInsert_length_le cache (mkCacheKey (typeNameOf v) (fresh n)) v
      omega
    · simp only [hc, Bool.false_eq_true, ite_false]
      have h1 := ih cache n
      omega

/-- The sandbox output function never registers elements of a
multi-element list: it only writes the reserved key and, when the
(unpacked) argument is itself cacheable, one key for the whole value. -/
theorem pout_multi_element_list (reg : Registry) (fresh : Nat → String)
    (cache : ObjectCache) (xs : List PyVal) (h : xs.length ≠ 1) :
    poutCache reg fresh cache (PyVal.vlist xs) =
      dictInsert cache LAST_OUTPUT (PyVal.vlist xs) := by
  have hunp : unpackSingleElementList (PyVal.vlist xs) = PyVal.vlist xs := by
    match xs with
    | [] => rfl
    | [x] => simp at h
    | x :: y :: rest => rfl
  simp only [poutCache, hunp, isCacheable, Bool.false_eq_true, ite_false]

/-! ## C5: auto-registration bounds -/

/-- C5 counterexample.  The claim asserts that the sandbox output
function registers each capability-bearing element of a ≤3-element
list-valued result under its own fresh key.  On the concrete input: a
registry containing the class `User`, a fresh-uuid supply `u0, u1, …`, an
empty cache and a two-element list of `User` objects, `pout`
(src/tools/object_cache_repl.py:39-52) registers nothing: the resulting
cache holds exactly the reserved last-output binding with the whole list
as its value, and in particular the first fresh key this run could
generate, `_USER_u0`, is absent.  (`pout` only checks the list itself
for cacheability; the elementwise ≤3 rule lives in
`store_raw_output_in_cache`, which only runs on the capability path.) -/
theorem auto_register_pout_counterexample :
    poutCache ["User"] (fun n => "u" ++ toString n) []
        (PyVal.vlist [PyVal.vobj "User" 1, PyVal.vobj "User" 2]) =
      [(LAST_OUTPUT, PyVal.vlist [PyVal.vobj "User" 1, PyVal.vobj "User" 2])] ∧
    lookupCache
      (poutCache ["User"] (fun n => "u" ++ toString n) []
        (PyVal.vlist [PyVal.vobj "User" 1, PyVal.vobj "User" 2])) "_USER_u0" =
      Option.none ∧
    (poutCache ["User"] (fun n => "u" ++ toString n) []
        (PyVal.vlist [PyVal.vobj "User" 1, PyVal.vobj "User" 2])).length = 1 :=
  ⟨rfl, rfl, rfl⟩

/-- C5 amended.  After a capability execution
(`store_raw_output_in_cache`): a capability-bearing non-list result is
stored under one fresh key; a list-valued result of at most 3 elements
stores each capability-bearing element under its own fresh key (and
nothing else: the cache is extended by exactly the `regEntries`
bindings), provided the generated keys are fresh; a list of more than 3
elements registers nothing; and in every case at most 3 entries are
added from a list-valued result.  The sandbox output function `pout`
differs: it writes the reserved key and registers only its
single-element-unpacked argument as a whole when that is
capability-bearing — for a multi-element list it registers no element. -/
theorem auto_register_amended (reg : Registry) (fresh : Nat → String)
    (cache : ObjectCache) (n : Nat) :
    (∀ v, isCacheable reg v = true →
      storeRawOutputInCache reg fresh (cache, n) v =
        (dictInsert cache (mkCacheKey (typeNameOf v) (fresh n)) v, n + 1)) ∧
    (∀ xs, xs.length ≤ 3 →
      (∀ e ∈ regEntries reg fresh n xs, containsKey cache e.1 = false) →
      ((regEntries reg fresh n xs).map Prod.fst).Nodup →
      storeRawOutputInCache reg fresh (cache, n) (PyVal.vlist xs) =
        (cache ++ regEntries reg fresh n xs,
          n + (regEntries reg fresh n xs).length)) ∧
    (∀ xs, 3 < xs.length →
      storeRawOutputInCache reg fresh (cache, n) (PyVal.vlist xs) = (cache, n)) ∧
    (∀ xs, (storeRawOutputInCache reg fresh (cache, n) (PyVal.vlist xs)).1.length ≤
      cache.length + 3) ∧
    (∀ xs, xs.length ≠ 1 →
      poutCache reg fresh cache (PyVal.vlist xs) =
        dictInsert cache LAST_OUTPUT (PyVal.vlist xs)) := by
  refine ⟨?_, ?_, ?_, ?_, ?_⟩
  · intro v hc
    exact storeRaw_single_cacheable reg fresh cache n v hc
  · intro xs hlen hnew hnodup
    simp only [storeRawOutputInCache]
    rw [if_pos hlen]
    exact storeRaw_fold_eq_append reg fresh xs cache n hnew hnodup
  · intro xs hlen
    exact storeRaw_list_gt3 reg fresh cache n xs hlen
  · intro xs
    by_cases hlen : xs.length ≤ 3
    · simp only [storeRawOutputInCache]
      rw [if_pos hlen]
      have h1 := storeRaw_fold_length_le reg fresh xs cache n
      omega
    · rw [storeRaw_list_gt3 reg fresh cache n xs (by omega)]
      simp
  · intro xs h
    exact pout_multi_element_list reg fresh cache xs h

/-- Witness for the amended C5: a two-element list of `User` objects on
the capability path registers both elements under the fresh keys
`_USER_u0` and `_USER_u1`. -/
theorem auto_register_amended_witness :
    (([PyVal.vobj "User" 1, PyVal.vobj "User" 2] : List PyVal).length ≤ 3) ∧
    storeRawOutputInCache ["User"] (fun n => "u" ++ toString n) ([], 0)
        (PyVal.vlist [PyVal.vobj "User" 1, PyVal.vobj "User" 2]) =
      ([("_USER_u0", PyVal.vobj "User" 1), ("_USER_u1", PyVal.vobj "User" 2)], 2) :=
  ⟨by decide,
   by
    have h := (auto_register_amended ["User"] (fun n => "u" ++ toString n) [] 0).2.1
      [PyVal.vobj "User" 1, PyVal.vobj "User" 2] (by decide)
      (fun e _ => rfl) (by decide)
    simpa using h⟩

/-! ## C7: round-trip and key shape of auto-registration -/

theorem matchesCacheKeyPattern_cons (rest : List Char) :
    matchesCacheKeyPattern (String.mk ('_' :: rest)) =
      (rest.all isWordChar && ((rest.drop 1).dropLast.contains '_')) := rfl

/-- A generated key `_TYPE_uuid` matches the cache-key pattern whenever
the uppercased type name and the uuid are nonempty strings of word
characters (class names are python identifiers, uuids are hex digits). -/
theorem matchesCacheKeyPattern_mkCacheKey (t u : String)
    (ht1 : (pyUpper t).data ≠ [])
    (ht2 : ∀ c ∈ (pyUpper t).data, isWordChar c = true)
    (hu1 : u.data ≠ [])
    (hu2 : ∀ c ∈ u.data, isWordChar c = true) :
    matchesCacheKeyPattern (mkCacheKey t u) = true := by
  have hdata : (mkCacheKey t u).data = '_' :: ((pyUpper t).data ++ '_' :: u.data) := by
    have h1 : ("_" : String).data = ['_'] := rfl
    simp [mkCacheKey, String.data_append, h1]
  have hmk : mkCacheKey t u = String.mk ('_' :: ((pyUpper t).data ++ '_' :: u.data)) := by
    rw [← hdata]
  rw [hmk, matchesCacheKeyPattern_cons, Bool.and_eq_true]
  obtain ⟨c, cs, hT⟩ := List.exists_cons_of_ne_nil ht1
  obtain ⟨d, ds, hU⟩ := List.exists_cons_of_ne_nil hu1
  constructor
  · rw [List.all_eq_true]
    intro x hx
    rcases List.mem_append.1 hx with hxt | hxu
    · exact ht2 x hxt
    · rcases List.mem_cons.1 hxu with hx1 | hx2
      · subst hx1; decide
      · exact hu2 x hx2
  · rw [hT, hU]
    simp only [List.cons_append, List.drop_succ_cons, List.drop_zero,
      List.dropLast_append_cons]
    rw [show ('_' :: d :: ds).dropLast = '_' :: (d :: ds).dropLast from rfl]
    simp [List.contains]

/-- C7.  `get(put(v)) == v`: a capability-bearing value registered by
`store_raw_output_in_cache` can be read back under the returned key
unchanged, and the key is exactly `_<TAG>_<id>` — underscore, the
uppercased runtime class name of `v`, underscore, the fresh short uuid —
and matches the cache-key pattern (under the hypothesis that the
uppercased class name and the uuid are nonempty strings of word
characters, which holds for python identifiers and hex uuids). -/
theorem put_get_roundtrip (reg : Registry) (fresh : Nat → String)
    (cache : ObjectCache) (n : Nat) (v : PyVal)
    (hc : isCacheable reg v = true)
    (ht1 : (pyUpper (typeNameOf v)).data ≠ [])
    (ht2 : ∀ c ∈ (pyUpper (typeNameOf v)).data, isWordChar c = true)
    (hu1 : (fresh n).data ≠ [])
    (hu2 : ∀ c ∈ (fresh n).data, isWordChar c = true) :
    lookupCache (storeRawOutputInCache reg fresh (cache, n) v).1
        (mkCacheKey (typeNameOf v) (fresh n)) = some v ∧
    mkCacheKey (typeNameOf v) (fresh n) =
      "_" ++ pyUpper (typeNameOf v) ++ "_" ++ fresh n ∧
    matchesCacheKeyPattern (mkCacheKey (typeNameOf v) (fresh n)) = true := by
  refine ⟨?_, rfl, matchesCacheKeyPattern_mkCacheKey _ _ ht1 ht2 hu1 hu2⟩
  rw [storeRaw_single_cacheable reg fresh cache n v hc]
  exact lookupCache_dictInsert_self _ _ _

/-- Witness for C7: a `User` object stored into a one-entry cache is read
back under the key `_USER_u0`, which matches the pattern. -/
theorem put_get_roundtrip_witness :
    isCacheable ["User"] (PyVal.vobj "User" 5) = true ∧
    lookupCache
        (storeRawOutputInCache ["User"] (fun n => "u" ++ toString n)
          ([("x", PyVal.vint 0)], 0) (PyVal.vobj "User" 5)).1
        (mkCacheKey (typeNameOf (PyVal.vobj "User" 5))
          ((fun n => "u" ++ toString n) 0)) = some (PyVal.vobj "User" 5) ∧
    matchesCacheKeyPattern (mkCacheKey (typeNameOf (PyVal.vobj "User" 5))
      ((fun n => "u" ++ toString n) 0)) = true :=
  ⟨by decide,
   (put_get_roundtrip ["User"] (fun n => "u" ++ toString n) [("x", PyVal.vint 0)] 0
      (PyVal.vobj "User" 5) (by decide) (by decide) (by decide) (by decide) (by decide)).1,
   (put_get_roundtrip ["User"] (fun n => "u" ++ toString n) [("x", PyVal.vint 0)] 0
      (PyVal.vobj "User" 5) (by decide) (by decide) (by decide) (by decide) (by decide)).2.2⟩

/-! ## C8: the reserved last-output key -/

/-- C8 counterexample.  The claim says the reserved key is overwritten on
every capability execution regardless of the result.  Concretely: with
the reserved key holding `0` and a tool message whose raw output is
`None`, `update_tool_state` (src/tools/tools.py:267-270) leaves the
reserved key bound to `0` — the `if raw_output is not None` guard skips
the overwrite, so the key does not hold the raw result `None` of this
execution. -/
theorem last_output_counterexample :
    updateToolStateCache ["User"] (fun n => "u" ++ toString n)
        [(LAST_OUTPUT, PyVal.vint 0)] [Msg.sedarToolMsg PyVal.vnone "c" false] =
      [(LAST_OUTPUT, PyVal.vint 0)] ∧
    lookupCache
      (updateToolStateCache ["User"] (fun n => "u" ++ toString n)
        [(LAST_OUTPUT, PyVal.vint 0)] [Msg.sedarToolMsg PyVal.vnone "c" false])
      LAST_OUTPUT = some (PyVal.vint 0) ∧
    (some (PyVal.vint 0) : Option PyVal) ≠ some PyVal.vnone :=
  ⟨rfl, rfl, fun h => PyVal.noConfusion (Option.some.inj h)⟩

/-- C8 amended.  After a capability execution the reserved last-output
key is overwritten with the single-element-unpacked raw result whenever
that result is not `None`, cacheable or not; a `None` result leaves the
key bound to its previous value.  The sandbox output function overwrites
the key unconditionally with its (unpacked) argument. -/
theorem last_output_amended (reg : Registry) (fresh : Nat → String)
    (cache : ObjectCache) (msgs : List Msg) (raw : PyVal) (c : String) (b : Bool) :
    (unpackSingleElementList raw ≠ PyVal.vnone →
      lookupCache
        (updateToolStateCache reg fresh cache (msgs ++ [Msg.sedarToolMsg raw c b]))
        LAST_OUTPUT = some (unpackSingleElementList raw)) ∧
    (unpackSingleElementList raw = PyVal.vnone →
      lookupCache
        (updateToolStateCache reg fresh cache (msgs ++ [Msg.sedarToolMsg raw c b]))
        LAST_OUTPUT = lookupCache cache LAST_OUTPUT) ∧
    (∀ out, lookupCache (poutCache reg fresh cache out) LAST_OUTPUT =
      some (unpackSingleElementList out)) := by
  refine ⟨?_, ?_, ?_⟩
  · intro hne
    simp only [updateToolStateCache, List.getLast?_concat]
    rw [lastOutputUpdate_ne_vnone cache _ hne,
      storeRawOutputInCache_fold_lookup_LAST_OUTPUT]
    exact lookupCache_dictInsert_self _ _ _
  · intro heq
    simp only [updateToolStateCache, List.getLast?_concat]
    rw [heq]
    exact storeRawOutputInCache_fold_lookup_LAST_OUTPUT reg fresh _ _
  · intro out
    simp only [poutCache]
    by_cases hc2 : isCacheable reg (unpackSingleElementList out)
    · rw [if_pos hc2,
        lookupCache_dictInsert_ne _ _ _ _ (mkCacheKey_ne_LAST_OUTPUT _ _)]
      exact lookupCache_dictInsert_self _ _ _
    · rw [if_neg hc2]
      exact lookupCache_dictInsert_self _ _ _

/-- Witness for the amended C8: a non-None raw output overwrites the
reserved key, and `pout` overwrites it unconditionally. -/
theorem last_output_amended_witness :
    (unpackSingleElementList (PyVal.vint 7) ≠ PyVal.vnone) ∧
    lookupCache
      (updateToolStateCache [] (fun _ => "u") [(LAST_OUTPUT, PyVal.vint 0)]
        ([] ++ [Msg.sedarToolMsg (PyVal.vint 7) "c" false]))
      LAST_OUTPUT = some (unpackSingleElementList (PyVal.vint 7)) :=
  ⟨fun h => PyVal.noConfusion h,
   (last_output_amended [] (fun _ => "u") [(LAST_OUTPUT, PyVal.vint 0)] []
      (PyVal.vint 7) "c" false).1 (fun h => PyVal.noConfusion h)⟩

/-! ## Reference-resolution lemmas -/

mutual

theorem replaceValue_no_ref (cache : ObjectCache) (t : PyVal)
    (h : hasValidRef cache t = false) : replaceValue cache t = t := by
  cases t with
  | vnone => simp [replaceValue]
  | vint n => simp [replaceValue]
  | vobj ty i => simp [replaceValue]
  | vstr s =>
    simp only [hasValidRef, Bool.and_eq_false_iff] at h
    simp only [replaceValue]
    cases h with
    | inl hm => rw [if_neg (by simp [hm])]
    | inr hl =>
      cases hm : matchesCacheKeyPattern s with
      | false => rw [if_neg (by simp)]
      | true =>
        rw [if_pos rfl]
        cases hlk : lookupCache cache s with
        | none => rfl
        | some v => rw [hlk] at hl; simp at hl
  | vlist xs =>
    simp only [hasValidRef] at h
    simp only [replaceValue]
    rw [replaceValueList_no_ref cache xs h]
  | vdict xs =>
    simp only [hasValidRef] at h
    simp only [replaceValue]
    rw [replaceValueDict_no_ref cache xs h]

theorem replaceValueList_no_ref (cache : ObjectCache) (xs : List PyVal)
    (h : hasValidRefList cache xs = false) : replaceValueList cache xs = xs := by
  cases xs with
  | nil => simp [replaceValueList]
  | cons x rest =>
    simp only [hasValidRefList, Bool.or_eq_false_iff] at h
    simp only [replaceValueList]
    rw [replaceValue_no_ref cache x h.1, replaceValueList_no_ref cache rest h.2]

theorem replaceValueDict_no_ref (cache : ObjectCache) (xs : List (String × PyVal))
    (h : hasValidRefDict cache xs = false) : replaceValueDict cache xs = xs := by
  cases xs with
  | nil => simp [replaceValueDict]
  | cons p rest =>
    simp only [hasValidRefDict, Bool.or_eq_false_iff] at h
    simp only [replaceValueDict]
    rw [replaceValue_no_ref cache p.2 h.1, replaceValueDict_no_ref cache rest h.2]

end

theorem replaceValueList_eq_map (cache : ObjectCache) (xs : List PyVal) :
    replaceValueList cache xs = xs.map (replaceValue cache) := by
  induction xs with
  | nil => simp [replaceValueList]
  | cons x rest ih => simp [replaceValueList, ih]

theorem findAssoc_replaceValueDict (cache : ObjectCache)
    (xs : List (String × PyVal)) (k : String) :
    findAssoc (replaceValueDict cache xs) k =
      (findAssoc xs k).map (replaceValue cache) := by
  induction xs with
  | nil => simp [replaceValueDict, findAssoc]
  | cons p rest ih =>
    simp only [replaceValueDict, findAssoc]
    cases hpk : (p.1 == k) with
    | true => simp [hpk]
    | false => simp [hpk, ih]

/-- Reference resolution acts on subtrees: whatever subtree a path
reaches before resolution, the same path after resolution reaches that
subtree resolved.  This is the depth-generic core of C6 and C10. -/
theorem getPath_replaceValue (cache : ObjectCache) (p : List PathStep) :
    ∀ (t x : PyVal), getPath t p = some x →
      getPath (replaceValue cache t) p = some (replaceValue cache x) := by
  induction p with
  | nil =>
    intro t x h
    simp only [getPath] at h ⊢
    rw [Option.some.inj h]
  | cons stp p ih =>
    intro t x h
    cases stp with
    | idx i =>
      cases t with
      | vlist xs =>
        simp only [getPath] at h ⊢
        cases hg : xs.get? i with
        | none => rw [hg] at h; exact Option.noConfusion h
        | some y =>
          rw [hg] at h
          simp only [replaceValue, getPath, replaceValueList_eq_map, List.get?_map, hg,
            Option.map_some']
          exact ih y x h
      | vnone => simp [getPath] at h
      | vstr s => simp [getPath] at h
      | vint n => simp [getPath] at h
      | vobj ty i2 => simp [getPath] at h
      | vdict xs => simp [getPath] at h
    | key k =>
      cases t with
      | vdict xs =>
        simp only [getPath] at h ⊢
        cases hg : findAssoc xs k with
        | none => rw [hg] at h; exact Option.noConfusion h
        | some y =>
          rw [hg] at h
          simp only [replaceValue, getPath, findAssoc_replaceValueDict, hg,
            Option.map_some']
          exact ih y x h
      | vnone => simp [getPath] at h
      | vstr s => simp [getPath] at h
      | vint n => simp [getPath] at h
      | vobj ty i2 => simp [getPath] at h
      | vlist xs => simp [getPath] at h

/-- Resolution of a single string leaf that matches the pattern and is
present in the cache. -/
theorem replaceValue_vstr_hit (cache : ObjectCache) (s : String) (v : PyVal)
    (hm : matchesCacheKeyPattern s = true) (hl : lookupCache cache s = some v) :
    replaceValue cache (PyVal.vstr s) = v := by
  simp only [replaceValue]
  rw [if_pos hm, hl]

/-- A string leaf that does not match the pattern, or matches but is
absent from the cache, is returned unchanged. -/
theorem replaceValue_vstr_miss (cache : ObjectCache) (s : String)
    (h : matchesCacheKeyPattern s = false ∨ lookupCache cache s = Option.none) :
    replaceValue cache (PyVal.vstr s) = PyVal.vstr s := by
  simp only [replaceValue]
  cases h with
  | inl hm => rw [if_neg (by simp [hm])]
  | inr hl =>
    cases hm : matchesCacheKeyPattern s with
    | false => rw [if_neg (by simp)]
    | true => rw [if_pos rfl, hl]

/-! ## C6: idempotence and depth of reference resolution -/

/-- C6.  `resolveReferences` (`replace_value`,
src/tools/tools.py:150-166): (a) it is idempotent on an argument tree
with no remaining valid cache references — applied twice it returns the
once-resolved tree (indeed, such a tree is returned unchanged, so a
second application changes nothing); (b) it resolves cache-reference
strings nested inside lists and dicts at arbitrary depth: a string leaf
reached by any path of list indices and dict keys that matches the
pattern and is present in the cache is replaced by the cached value at
that same path; (c) non-matching strings are left untouched at any
depth. -/
theorem resolve_references_idempotent_and_deep (cache : ObjectCache) (t : PyVal) :
    (hasValidRef cache t = false →
      replaceValue cache (replaceValue cache t) = replaceValue cache t) ∧
    (∀ p s v, getPath t p = some (PyVal.vstr s) → matchesCacheKeyPattern s = true →
      lookupCache cache s = some v → getPath (replaceValue cache t) p = some v) ∧
    (∀ p s, getPath t p = some (PyVal.vstr s) → matchesCacheKeyPattern s = false →
      getPath (replaceValue cache t) p = some (PyVal.vstr s)) := by
  refine ⟨?_, ?_, ?_⟩
  · intro h
    rw [replaceValue_no_ref cache t h]
    exact replaceValue_no_ref cache t h
  · intro p s v hp hm hl
    have h1 := getPath_replaceValue cache p t (PyVal.vstr s) hp
    rw [replaceValue_vstr_hit cache s v hm hl] at h1
    exact h1
  · intro p s hp hm
    have h1 := getPath_replaceValue cache p t (PyVal.vstr s) hp
    rw [replaceValue_vstr_miss cache s (Or.inl hm)] at h1
    exact h1

/-- Witness for C6: a reference nested two levels deep (dict value, then
list element) resolves to the cached value; the idempotence part holds at
a reference-free tree. -/
theorem resolve_references_witness :
    getPath
      (replaceValue [("_USER_1", PyVal.vint 7)]
        (PyVal.vdict [("a", PyVal.vlist [PyVal.vstr "_USER_1", PyVal.vstr "plain"])]))
      [PathStep.key "a", PathStep.idx 0] = some (PyVal.vint 7) ∧
    replaceValue [("_USER_1", PyVal.vint 7)]
      (replaceValue [("_USER_1", PyVal.vint 7)] (PyVal.vlist [PyVal.vint 3, PyVal.vnone])) =
      replaceValue [("_USER_1", PyVal.vint 7)] (PyVal.vlist [PyVal.vint 3, PyVal.vnone]) :=
  ⟨(resolve_references_idempotent_and_deep [("_USER_1", PyVal.vint 7)]
      (PyVal.vdict [("a", PyVal.vlist [PyVal.vstr "_USER_1", PyVal.vstr "plain"])])).2.1
    [PathStep.key "a", PathStep.idx 0] "_USER_1" (PyVal.vint 7) rfl (by decide) rfl,
   (resolve_references_idempotent_and_deep [("_USER_1", PyVal.vint 7)]
      (PyVal.vlist [PyVal.vint 3, PyVal.vnone])).1
    (by simp [hasValidRef, hasValidRefList])⟩

/-! ## C10: dangling references are left unchanged -/

/-- C10.  Reference resolution is total on dangling references: a string
that matches the cache-key pattern but is not a key of the Object Cache
is returned unchanged — both as a whole argument and as a leaf at any
depth of the argument tree — and no null or placeholder value is
substituted (the embedding is a total function, mirroring the source's
fall-through `return value`). -/
theorem dangling_reference_unchanged (cache : ObjectCache) (s : String)
    (hm : matchesCacheKeyPattern s = true)
    (hl : lookupCache cache s = Option.none) :
    replaceValue cache (PyVal.vstr s) = PyVal.vstr s ∧
    (∀ t p, getPath t p = some (PyVal.vstr s) →
      getPath (replaceValue cache t) p = some (PyVal.vstr s)) := by
  constructor
  · exact replaceValue_vstr_miss cache s (Or.inr hl)
  · intro t p hp
    have h1 := getPath_replaceValue cache p t (PyVal.vstr s) hp
    rw [replaceValue_vstr_miss cache s (Or.inr hl)] at h1
    exact h1

/-- Witness for C10: the dangling reference `_USER_99` (pattern-matching,
absent from the cache) survives resolution unchanged at depth 1. -/
theorem dangling_reference_witness :
    matchesCacheKeyPattern "_USER_99" = true ∧
    getPath
      (replaceValue [("_USER_1", PyVal.vint 7)]
        (PyVal.vlist [PyVal.vstr "_USER_99"]))
      [PathStep.idx 0] = some (PyVal.vstr "_USER_99") :=
  ⟨by decide,
   (dangling_reference_unchanged [("_USER_1", PyVal.vint 7)] "_USER_99"
      (by decide) rfl).2
    (PyVal.vlist [PyVal.vstr "_USER_99"]) [PathStep.idx 0] rfl⟩

/-! ## C9: exceptions are captured textually -/

/-- `needle` occurs contiguously inside `hay`. -/
def containsSubstring (hay needle : List Char) : Prop :=
  ∃ pre post, hay = pre ++ needle ++ post

theorem isPrefixOf_append_self (l t : List Char) : l.isPrefixOf (l ++ t) = true := by
  induction l with
  | nil => simp
  | cons c cs ih => simp [List.isPrefixOf, ih]

/-- C9.  Exceptions during a capability invocation or during sandboxed
code execution are captured and returned as text, not propagated, and the
session continues:

* `SedarTool._run` wraps a raised exception into a `ToolException` whose
  message is the error prefix followed by `str(e)`; with
  `handle_tool_error=True` (the value `generate_tools` always sets) the
  copied `run` converts it into a returned message whose content contains
  the exception's string form and whose `has_error` flag is set — it is
  never re-raised;
* the sandbox worker puts `repr(e)` — which contains `str(e)` — on the
  result queue instead of re-raising;
* after a tool execution that produced an error-flagged
  `SedarToolMessage`, the graph still routes to the Synthesize node (with
  or without the confirmation gate), so the session continues. -/
theorem execution_errors_captured (serialize : PyVal → String) (excText : String)
    (e : PyExc) (humanConfirmation : Bool) (reg : Registry) (fresh : Nat → String)
    (content toolContent : String) (raw : PyVal) (s : AgentState) :
    sedarToolRun true serialize (Except.error excText) =
      ToolRunOutcome.message (TOOL_EXECUTION_ERROR_MSG ++ " " ++ excText) true
        Option.none ∧
    containsSubstring (TOOL_EXECUTION_ERROR_MSG ++ " " ++ excText).data excText.data ∧
    (∀ m, sedarToolRun true serialize (Except.error excText) ≠
      ToolRunOutcome.raisedExc m) ∧
    replWorker (Except.error e) = pyRepr e ∧
    containsSubstring (pyRepr e).data (pyStr e).data ∧
    (step humanConfirmation reg fresh Node.toolAgent
        (StepInput.toolRun content true raw toolContent true) s).1 =
      Node.synthesizeAgent := by
  have hmsg : sedarToolRun true serialize (Except.error excText) =
      ToolRunOutcome.message (TOOL_EXECUTION_ERROR_MSG ++ " " ++ excText) true
        Option.none := by
    simp only [sedarToolRun, if_pos, pyStartsWith, String.data_append]
    rw [List.append_assoc, isPrefixOf_append_self]
  refine ⟨hmsg, ?_, ?_, rfl, ?_, ?_⟩
  · refine ⟨(TOOL_EXECUTION_ERROR_MSG ++ " ").data, [], ?_⟩
    simp [String.data_append]
  · intro m hcontra
    rw [hmsg] at hcontra
    exact ToolRunOutcome.noConfusion hcontra
  · refine ⟨(e.ty ++ "(\x27").data, ("\x27)" : String).data, ?_⟩
    simp [pyRepr, pyStr, String.data_append]
  · cases humanConfirmation with
    | false => simp [step]
    | true =>
      simp only [step, if_pos, true_or, ite_true, checkToolCancellation]
      rw [List.getLast?_concat]
      simp [isSedarToolMsg]

/-! ## The index-range invariant of reachable states

These lemmas justify the hypothesis `idx ≤ len - 1` used when
characterizing the `run_query` transition: on every run of the machine
from the initial state with a nonempty decomposed-query list the current
subquery index never exceeds the last index. -/

/-- The subquery index stays within range; on entry to the manager with
an advancing signal it is at most the second-to-last index (so the
advance cannot overshoot). -/
def IndexInv (n : Node) (s : AgentState) : Prop :=
  s.currentQueryIndex ≤ (s.decomposedQueries.length : Int) - 1 ∧
  (n = Node.managerAgent →
    (s.nextAction ≠ ActionSignal.CONT ∧ s.nextAction ≠ ActionSignal.ERROR ∧
      s.nextAction ≠ ActionSignal.DECLINE) →
    s.currentQueryIndex ≤ (s.decomposedQueries.length : Int) - 2)

theorem checkToolCancellation_ne_manager (s : AgentState) :
    checkToolCancellation s ≠ Node.managerAgent := by
  unfold checkToolCancellation
  cases s.messages.getLast? with
  | none => exact fun hh => Node.noConfusion hh
  | some m =>
    show (if s.nextAction = ActionSignal.TOOL ∧ ¬ isSedarToolMsg m = true
        then Node.removeToolMessages else Node.synthesizeAgent) ≠ Node.managerAgent
    by_cases hcond : s.nextAction = ActionSignal.TOOL ∧ ¬ isSedarToolMsg m = true
    · rw [if_pos hcond]
      exact fun hh => Node.noConfusion hh
    · rw [if_neg hcond]
      exact fun hh => Node.noConfusion hh

theorem nextActionRoute_eq_manager (s : AgentState)
    (h : nextActionRoute s = Node.managerAgent) :
    s.nextAction = ActionSignal.ERROR := by
  unfold nextActionRoute at h
  split_ifs at h with hT hC hE
  exact hE

theorem runQueryRoute_eq_manager (s : AgentState)
    (h : runQueryRoute s = Node.managerAgent) :
    s.nextAction = ActionSignal.CONT ∨
      s.currentQueryIndex < (s.decomposedQueries.length : Int) - 1 := by
  unfold runQueryRoute at h
  split_ifs at h with h3 hB
  exact hB

theorem indexInv_step (cfg : Bool) (reg : Registry) (fresh : Nat → String)
    (n : Node) (inp : StepInput) (s : AgentState) (h : IndexInv n s) :
    IndexInv (step cfg reg fresh n inp s).1 (step cfg reg fresh n inp s).2 := by
  obtain ⟨h1, h2⟩ := h
  cases n with
  | managerAgent =>
    cases inp with
    | llmOut a content =>
      simp only [step, getAndUpdateCurrentQuery]
      by_cases hadv : s.nextAction ≠ ActionSignal.CONT ∧
          s.nextAction ≠ ActionSignal.ERROR ∧ s.nextAction ≠ ActionSignal.DECLINE
      · rw [if_pos hadv]
        have hidx : s.currentQueryIndex ≤ (s.decomposedQueries.length : Int) - 2 :=
          h2 rfl hadv
        refine ⟨?_, ?_⟩
        · show s.currentQueryIndex + 1 ≤ (s.decomposedQueries.length : Int) - 1
          omega
        · intro hm ha
          have herr : a = ActionSignal.ERROR := nextActionRoute_eq_manager _ hm
          exact absurd herr ha.2.1
      · rw [if_neg hadv]
        refine ⟨h1, ?_⟩
        intro hm ha
        have herr : a = ActionSignal.ERROR := nextActionRoute_eq_manager _ hm
        exact absurd herr ha.2.1
    | toolRun a b c d e => exact ⟨h1, h2⟩
    | codeGen a b => exact ⟨h1, h2⟩
    | codeRun a b => exact ⟨h1, h2⟩
    | unit => exact ⟨h1, h2⟩
  | toolAgent =>
    cases inp with
    | toolRun content approved raw toolContent hasErr =>
      simp only [step]
      by_cases hap : (approved = true) ∨ ¬ (cfg = true)
      · rw [if_pos hap]
        cases cfg with
        | true =>
          rw [if_pos rfl]
          exact ⟨h1, fun hm _ => absurd hm (checkToolCancellation_ne_manager _)⟩
        | false =>
          rw [if_neg (by simp)]
          exact ⟨h1, fun hm _ => Node.noConfusion hm⟩
      · rw [if_neg hap]
        cases cfg with
        | true =>
          rw [if_pos rfl]
          exact ⟨h1, fun hm _ => absurd hm (checkToolCancellation_ne_manager _)⟩
        | false =>
          rw [if_neg (by simp)]
          exact ⟨h1, fun hm _ => Node.noConfusion hm⟩
    | llmOut a b => exact ⟨h1, h2⟩
    | codeGen a b => exact ⟨h1, h2⟩
    | codeRun a b => exact ⟨h1, h2⟩
    | unit => exact ⟨h1, h2⟩
  | codeAgent =>
    cases inp with
    | codeGen content approved =>
      simp only [step]
      by_cases hca : (cfg = true) ∧ ¬ (approved = true)
      · rw [if_pos hca]
        exact ⟨h1, fun hm _ => Node.noConfusion hm⟩
      · rw [if_neg hca]
        exact ⟨h1, fun hm _ => Node.noConfusion hm⟩
    | llmOut a b => exact ⟨h1, h2⟩
    | toolRun a b c d e => exact ⟨h1, h2⟩
    | codeRun a b => exact ⟨h1, h2⟩
    | unit => exact ⟨h1, h2⟩
  | codeExecutionTool =>
    cases inp with
    | codeRun output cacheAfter => exact ⟨h1, fun hm _ => Node.noConfusion hm⟩
    | llmOut a b => exact ⟨h1, h2⟩
    | toolRun a b c d e => exact ⟨h1, h2⟩
    | codeGen a b => exact ⟨h1, h2⟩
    | unit => exact ⟨h1, h2⟩
  | synthesizeAgent =>
    cases inp with
    | llmOut a content =>
      simp only [step]
      refine ⟨h1, ?_⟩
      intro hm ha
      rcases runQueryRoute_eq_manager _ hm with hcont | hlt
      · exact absurd hcont ha.1
      · have hlt2 : s.currentQueryIndex < (s.decomposedQueries.length : Int) - 1 := hlt
        show s.currentQueryIndex ≤ (s.decomposedQueries.length : Int) - 2
        omega
    | toolRun a b c d e => exact ⟨h1, h2⟩
    | codeGen a b => exact ⟨h1, h2⟩
    | codeRun a b => exact ⟨h1, h2⟩
    | unit => exact ⟨h1, h2⟩
  | removeToolMessages =>
    cases inp with
    | llmOut a b => exact ⟨h1, fun _ ha => absurd rfl ha.2.2⟩
    | toolRun a b c d e => exact ⟨h1, fun _ ha => absurd rfl ha.2.2⟩
    | codeGen a b => exact ⟨h1, fun _ ha => absurd rfl ha.2.2⟩
    | codeRun a b => exact ⟨h1, fun _ ha => absurd rfl ha.2.2⟩
    | unit => exact ⟨h1, fun _ ha => absurd rfl ha.2.2⟩
  | removeCodeMessages =>
    cases inp with
    | llmOut a b => exact ⟨h1, fun _ ha => absurd rfl ha.2.2⟩
    | toolRun a b c d e => exact ⟨h1, fun _ ha => absurd rfl ha.2.2⟩
    | codeGen a b => exact ⟨h1, fun _ ha => absurd rfl ha.2.2⟩
    | codeRun a b => exact ⟨h1, fun _ ha => absurd rfl ha.2.2⟩
    | unit => exact ⟨h1, fun _ ha => absurd rfl ha.2.2⟩
  | endNode =>
    cases inp with
    | llmOut a b => exact ⟨h1, fun hm _ => Node.noConfusion hm⟩
    | toolRun a b c d e => exact ⟨h1, fun hm _ => Node.noConfusion hm⟩
    | codeGen a b => exact ⟨h1, fun hm _ => Node.noConfusion hm⟩
    | codeRun a b => exact ⟨h1, fun hm _ => Node.noConfusion hm⟩
    | unit => exact ⟨h1, fun hm _ => Node.noConfusion hm⟩

theorem indexInv_runTrace (cfg : Bool) (reg : Registry) (fresh : Nat → String)
    (inputs : List StepInput) (ns : Node × AgentState)
    (h : IndexInv ns.1 ns.2) :
    IndexInv (runTrace cfg reg fresh ns inputs).1 (runTrace cfg reg fresh ns inputs).2 := by
  induction inputs generalizing ns with
  | nil => exact h
  | cons i rest ih =>
    cases ns with
    | mk n s => exact ih (step cfg reg fresh n i s) (indexInv_step cfg reg fresh n i s h)

/-- On any run from the initial state with a nonempty decomposed-query
list, the current subquery index never exceeds the last index. -/
theorem reachable_index_le (cfg : Bool) (reg : Registry) (fresh : Nat → String)
    (qs : List String) (cache : ObjectCache) (inputs : List StepInput)
    (hq : 1 ≤ qs.length) :
    (runTrace cfg reg fresh (Node.managerAgent, initState qs cache) inputs).2.currentQueryIndex ≤
      ((runTrace cfg reg fresh (Node.managerAgent, initState qs cache)
        inputs).2.decomposedQueries.length : Int) - 1 := by
  have hinit : IndexInv Node.managerAgent (initState qs cache) := by
    constructor
    · show (-1 : Int) ≤ (qs.length : Int) - 1
      omega
    · intro _ _
      show (-1 : Int) ≤ (qs.length : Int) - 2
      omega
  exact (indexInv_runTrace cfg reg fresh inputs
    (Node.managerAgent, initState qs cache) hinit).1

end SedarNLI
